import Mathlib

/-!
Shallow embedding of the jepsen.demo Rust consistency checker
(src/checker/{types,store,check,main}.rs) and proofs about it.

Conventions of the embedding:
- Rust `u64`/`usize` values become `Nat`; `i64` becomes `Int`.
- Rust `Option<T>` becomes `Option T`; fallible functions returning
  `Result<T, Box<dyn Error>>` become `Except String T`.
- Rust `Vec` becomes `List` with push = `List.concat`.
- The `HashSet<Possibility>` of seen possibilities becomes a `List` that is
  queried with the embedded `PartialEq` (state and feed progress only) before
  insertion; the `HashMap<KeyType, usize>` of per-key operation counts becomes
  an association list in insertion order.
- Indexing `v[i]` on in-range indices is total in the source (panics are
  unreachable); the embedding uses `getD`/`get?` with a default that is never
  hit on the inputs the program constructs.
-/

namespace JepsenDemo

/-- Client ID type (`types.rs`: `ClientId = usize`). -/
abbrev ClientId := Nat

/-- Key type (`types.rs`: `KeyType = u64`). -/
abbrev KeyType := Nat

/-- Value type (`types.rs`: `ValType = u64`). -/
abbrev ValType := Nat

/-- Timestamp type (`types.rs`: `Timestamp = u64`). -/
abbrev Timestamp := Nat

/-- Ranks of supported consistency levels (`types.rs::Consistency`).
Only the two endpoints of the taxonomy exist in the source. -/
inductive Consistency
  | weak
  | linearizable
deriving DecidableEq, Fintype

/-- The discriminant values of `types.rs::Consistency` (`Weak = 0`,
`Linearizable = 4`); the derived Rust `Ord` compares these. -/
def Consistency.toNat : Consistency → Nat
  | .weak => 0
  | .linearizable => 4

/-- Refined operation data used by the checker (`check.rs::CkData`). -/
inductive CkData
  | read (val : Option ValType)
  | write (val : ValType)
  | rmw (rval : Option ValType) (wval : Option ValType)
deriving DecidableEq

/-- Refined operation span used by the checker (`check.rs::CkSpan`). -/
structure CkSpan where
  invoke : Timestamp
  finish : Timestamp
  data : CkData
deriving DecidableEq

/-- Embeds `check.rs::CkSpan::terminated`: a span is terminated iff its finish
timestamp is non-zero (zero is reserved for inflight spans). -/
def CkSpan.terminated (s : CkSpan) : Bool :=
  s.finish != 0

/-- A single search node (`check.rs::Possibility`): the witness ordering
graph, the register state after the linearized prefix, the maximum invoke
timestamp placed so far, and the per-client feeding progress. -/
structure Possibility where
  graph : List (ClientId × Nat)
  state : Option ValType
  maxInvoke : Timestamp
  feedProg : List Nat
deriving DecidableEq

/-- Embeds `check.rs::Possibility::initial`. -/
def Possibility.initial (numClients : Nat) : Possibility :=
  { graph := [], state := none, maxInvoke := 0,
    feedProg := List.replicate numClients 0 }

/-- The deduplication identity of a possibility: exactly the fields hashed
and compared by the `Hash`/`PartialEq` impls in `check.rs` (state and feed
progress; the graph and max invoke are excluded). -/
def pKey (p : Possibility) : Option ValType × List Nat :=
  (p.state, p.feedProg)

/-- Embedded `PartialEq::eq` for `Possibility` (`check.rs` lines 78-82):
compares only `state` and `feed_prog`. -/
def possibEq (a b : Possibility) : Bool :=
  a.state == b.state && a.feedProg == b.feedProg

/-- Membership in the seen set (`HashSet::contains` resolved through the
custom `PartialEq`). -/
def possibMem (seen : List Possibility) (p : Possibility) : Bool :=
  seen.any (fun q => possibEq q p)

/-- Increment the entry at one position of a feed-progress vector
(`new_feed_prog[client] += 1`); out of range leaves the list unchanged
(callers stay in range). -/
def incrAt : List Nat → Nat → List Nat
  | [], _ => []
  | x :: xs, 0 => (x + 1) :: xs
  | x :: xs, n + 1 => x :: incrAt xs n

/-- Embeds `check.rs::CheckerPerKey::try_append_new_span`: try to append a span at
the end of the ordering, returning the successor possibility on success.
Reads accept iff the recorded value equals the state and leave the state
(and the graph) unchanged; writes always accept and set the state; RMW (CAS)
accepts iff the state equals the recorded expected value and sets the state
to the recorded new value. -/
def tryAppendNewSpan (possib : Possibility) (feeding : CkSpan)
    (feedingIdx : ClientId × Nat) : Option Possibility :=
  let appended : Option (List (ClientId × Nat) × Option ValType) :=
    match feeding.data with
    | .read val =>
        if possib.state = val then some (possib.graph, possib.state) else none
    | .write val =>
        some (possib.graph.concat feedingIdx, some val)
    | .rmw rval wval =>
        if possib.state = rval then some (possib.graph.concat feedingIdx, wval)
        else none
  match appended with
  | some (newGraph, newState) =>
      some { graph := newGraph, state := newState,
             maxInvoke := max feeding.invoke possib.maxInvoke,
             feedProg := incrAt possib.feedProg feedingIdx.1 }
  | none => none

/-- Embeds `check.rs::CheckerPerKey::handle_feed_attempt`: the real-time guard
rejects the span when its finish is strictly below the possibility's max
invoke; otherwise the semantic guard (`tryAppendNewSpan`) runs, and an
accepted successor is enqueued unless its deduplication key is already in
the seen set. -/
def handleFeedAttempt (possib : Possibility) (feeding : CkSpan)
    (feedingIdx : ClientId × Nat) (pending seen : List Possibility) :
    List Possibility × List Possibility :=
  if feeding.finish < possib.maxInvoke then (pending, seen)
  else
    match tryAppendNewSpan possib feeding feedingIdx with
    | some newPossib =>
        if possibMem seen newPossib then (pending, seen)
        else (pending.concat newPossib, seen.concat newPossib)
    | none => (pending, seen)

/-- One client's turn in the feeding loop of `check.rs::CheckerPerKey::check`:
skip clients already at the end of their queue and spans that are not
terminated; otherwise attempt the feed. -/
def expandStep (queues : List (List CkSpan)) (possib : Possibility)
    (acc : List Possibility × List Possibility) (ci : ClientId × Nat) :
    List Possibility × List Possibility :=
  if ci.2 = (queues.getD ci.1 []).length then acc
  else
    match (queues.getD ci.1 []).get? ci.2 with
    | none => acc
    | some feeding =>
        if feeding.terminated then
          handleFeedAttempt possib feeding ci acc.1 acc.2
        else acc

/-- The full feeding loop over the enumerated feed-progress vector of one
popped possibility. -/
def expandPossib (queues : List (List CkSpan)) (possib : Possibility)
    (pending seen : List Possibility) : List Possibility × List Possibility :=
  possib.feedProg.enum.foldl (expandStep queues possib) (pending, seen)

/-- The count of clients whose feeding progress is at the end of their
queue (`client_end_count` in `check.rs::CheckerPerKey::check`). -/
def countEnd (queues : List (List CkSpan)) (feedProg : List Nat) : Nat :=
  (feedProg.enum.filter
    (fun ci => ci.2 = (queues.getD ci.1 []).length)).length

/-- The BFS loop of `check.rs::CheckerPerKey::check`, with explicit fuel
standing for the number of loop iterations; `none` means the fuel ran out
(the Rust loop runs unbounded). An empty pending queue yields `weak`; a
popped possibility with every client at the end of its queue yields
`linearizable`. -/
def checkLoop (queues : List (List CkSpan)) :
    Nat → List Possibility → List Possibility → Option Consistency
  | 0, _, _ => none
  | fuel + 1, pending, seen =>
      match pending with
      | [] => some Consistency.weak
      | possib :: rest =>
          let res := expandPossib queues possib rest seen
          if countEnd queues possib.feedProg = queues.length then
            some Consistency.linearizable
          else checkLoop queues fuel res.1 res.2

/-- Embeds `check.rs::CheckerPerKey::new` followed by `check`: start from the
initial possibility, present in both the pending queue and the seen set. -/
def checkPerKey (fuel : Nat) (clientQueues : List (List CkSpan)) :
    Option Consistency :=
  checkLoop clientQueues fuel
    [Possibility.initial clientQueues.length]
    [Possibility.initial clientQueues.length]

/-! ## Timeline builder (`types.rs`) -/

/-- Event type enum (`types.rs::EventType`): `:invoke`, `:ok`, `:fail`,
`:info`. -/
inductive EventType
  | invoke
  | okay
  | fail
  | error
deriving DecidableEq

/-- Operation type and data (`types.rs::OpData`). Option fields are `none`
when the operation is on the fly and result values are not known yet. -/
inductive OpData
  | read (key : KeyType) (val : Option ValType) (tag : Option Nat)
  | write (key : KeyType) (val : ValType) (tag : Nat)
  | rmw (key : KeyType) (rval : Option ValType) (rtag : Option Nat)
      (wval : Option ValType) (wtag : Option Nat)
deriving DecidableEq

/-- Embeds `types.rs::OpData::match_previous`: whether an Okay payload forms a
matching pair with the invoked payload. -/
def OpData.matchPrevious (self prev : OpData) : Bool :=
  match self, prev with
  | .read key _ _, .read k _ _ => key == k
  | .write key val _, .write k v _ => key == k && val == v
  | .rmw key _ _ _ _, .rmw k _ _ _ _ => key == k
  | _, _ => false

/-- Embeds `types.rs::OpData::overwrite_by`: overwrite the result-bearing value
fields with the other payload's values. -/
def OpData.overwriteBy (self other : OpData) : OpData :=
  match self, other with
  | .read key _ tag, .read _ v _ => .read key v tag
  | .rmw key _ rtag _ wtag, .rmw _ rv _ wv _ => .rmw key rv rtag wv wtag
  | s, _ => s

/-- Operation span (`types.rs::OpSpan`): operation data with invocation and
completion timestamps. -/
structure OpSpan where
  invoke : Timestamp
  finish : Timestamp
  data : OpData
  client : ClientId
deriving DecidableEq

/-- Embeds `types.rs::OpSpan::key`. -/
def OpSpan.key (s : OpSpan) : KeyType :=
  match s.data with
  | .read key _ _ => key
  | .write key _ _ => key
  | .rmw key _ _ _ _ => key

/-- Embeds `types.rs::OpSpan::terminated`. -/
def OpSpan.terminated (s : OpSpan) : Bool :=
  s.finish != 0

/-- Event record used during parsing (`types.rs::Event`). -/
structure Event where
  time : Timestamp
  etype : EventType
  client : ClientId
  opdata : OpData
deriving DecidableEq

/-- Apply a function to the element at one position of a list, leaving the
list unchanged when the index is out of range (the Rust source indexes
in-range vectors directly). -/
def updateAt {α : Type} : List α → Nat → (α → α) → List α
  | [], _, _ => []
  | x :: xs, 0, f => f x :: xs
  | x :: xs, n + 1, f => x :: updateAt xs n f

/-- Embeds `HashMap::entry(key).and_modify(add one).or_insert(1)` on the per-key
operation counts, modelled as an association list in insertion order. -/
def bumpKey : List (KeyType × Nat) → KeyType → List (KeyType × Nat)
  | [], k => [(k, 1)]
  | (k0, c) :: rest, k =>
      if k0 = k then (k0, c + 1) :: rest else (k0, c) :: bumpKey rest k

/-- The collection of per-client queues of operation spans together with the
statistics the checker consumes (`types.rs::Timeline`). The descriptive
min/med/avg/max summaries computed at the end of `Timeline::new` are not
modelled; no later code depends on them. -/
structure Timeline where
  queues : List (List OpSpan)
  statsOpsR : Nat × Nat × Nat
  statsOpsW : Nat × Nat × Nat
  statsOpsCas : Nat × Nat × Nat
  statsKeyOps : List (KeyType × Nat)
deriving DecidableEq

/-- Embeds `types.rs::Timeline::num_clients`. -/
def Timeline.numClients (tl : Timeline) : Nat :=
  tl.queues.length

/-- One step of the event fold in `types.rs::Timeline::new`: validate and
apply a single event to the timeline under construction. Invoke requires no
inflight span on the client and pushes a scrubbed span with finish 0; Okay
requires an inflight span with a matching payload and completes it; Fail and
Info require an inflight span and remove it. -/
def applyEvent (tl : Timeline) (e : Event) : Except String Timeline :=
  let q := tl.queues.getD e.client []
  match e.etype with
  | .invoke =>
      if !q.isEmpty && (q.getLast?.map OpSpan.finish) = some 0 then
        Except.error "client :invoke when previous op flying"
      else
        let scrubbed :=
          match e.opdata with
          | .read key _ tag => OpData.read key none tag
          | .write key val tag => OpData.write key val tag
          | .rmw key _ rtag _ wtag => OpData.rmw key none rtag none wtag
        let tl :=
          match e.opdata with
          | .read _ _ _ =>
              { tl with statsOpsR := (tl.statsOpsR.1 + 1, tl.statsOpsR.2) }
          | .write _ _ _ =>
              { tl with statsOpsW := (tl.statsOpsW.1 + 1, tl.statsOpsW.2) }
          | .rmw _ _ _ _ _ =>
              { tl with statsOpsCas := (tl.statsOpsCas.1 + 1, tl.statsOpsCas.2) }
        Except.ok { tl with queues :=
          (updateAt tl.queues e.client
            (fun qq => qq.concat (OpSpan.mk e.time 0 scrubbed e.client))) }
  | .okay =>
      match q.getLast? with
      | none => Except.error "client :ok when no op is flying"
      | some op =>
          if op.terminated then
            Except.error "client :ok when no op is flying"
          else if !(e.opdata.matchPrevious op.data) then
            Except.error "client :ok op mismatching previous"
          else
            let tl :=
              match op.data with
              | .read _ _ _ =>
                  { tl with statsOpsR :=
                      (tl.statsOpsR.1, tl.statsOpsR.2.1 + 1, tl.statsOpsR.2.2) }
              | .write _ _ _ =>
                  { tl with statsOpsW :=
                      (tl.statsOpsW.1, tl.statsOpsW.2.1 + 1, tl.statsOpsW.2.2) }
              | .rmw _ _ _ _ _ =>
                  { tl with statsOpsCas :=
                      (tl.statsOpsCas.1, tl.statsOpsCas.2.1 + 1, tl.statsOpsCas.2.2) }
            let done : OpSpan :=
              { op with finish := e.time, data := op.data.overwriteBy e.opdata }
            Except.ok { tl with
              queues := updateAt tl.queues e.client
                (fun qq => qq.dropLast.concat done),
              statsKeyOps := bumpKey tl.statsKeyOps done.key }
  | .fail | .error =>
      match q.getLast? with
      | none => Except.error "client :fail or :info when no op is flying"
      | some op =>
          if op.terminated then
            Except.error "client :fail or :info when no op is flying"
          else
            let tl :=
              match op.data with
              | .read _ _ _ =>
                  { tl with statsOpsR :=
                      (tl.statsOpsR.1, tl.statsOpsR.2.1, tl.statsOpsR.2.2 + 1) }
              | .write _ _ _ =>
                  { tl with statsOpsW :=
                      (tl.statsOpsW.1, tl.statsOpsW.2.1, tl.statsOpsW.2.2 + 1) }
              | .rmw _ _ _ _ _ =>
                  { tl with statsOpsCas :=
                      (tl.statsOpsCas.1, tl.statsOpsCas.2.1, tl.statsOpsCas.2.2 + 1) }
            Except.ok { tl with
              queues := updateAt tl.queues e.client List.dropLast }

/-- Embeds `types.rs::Timeline::new`: fold the event stream over `applyEvent`,
starting from one empty queue per client. -/
def timelineNew (events : List Event) (maxClient : ClientId) :
    Except String Timeline :=
  events.foldlM applyEvent
    { queues := List.replicate (maxClient + 1) [],
      statsOpsR := (0, 0, 0), statsOpsW := (0, 0, 0),
      statsOpsCas := (0, 0, 0), statsKeyOps := [] }

/-! ## Per-key partitioning and aggregation (`check.rs::Checker`) -/

/-- Embeds `check.rs::CkData::from_raw`. -/
def CkData.fromRaw : OpData → CkData
  | .read _ val _ => .read val
  | .write _ val _ => .write val
  | .rmw _ rval _ wval _ => .rmw rval wval

/-- Embeds `check.rs::CkSpan::from_raw`. -/
def CkSpan.fromRaw (s : OpSpan) : CkSpan :=
  { invoke := s.invoke, finish := s.finish, data := CkData.fromRaw s.data }

/-- The per-key sub-timeline built by `check.rs::Checker::new` for one key:
for each client, the subsequence of that client's spans touching the key,
in order. -/
def perKeySpans (tl : Timeline) (k : KeyType) : List (List CkSpan) :=
  tl.queues.map (fun q => (q.filter (fun s => s.key == k)).map CkSpan.fromRaw)

/-- The keys the checker iterates over (`Checker::new` collects the keys of
`stats_key_ops`; the model fixes the insertion order where the Rust
`HashMap` order is arbitrary). -/
def checkerKeys (tl : Timeline) : List KeyType :=
  tl.statsKeyOps.map Prod.fst

/-- The aggregation loop of `check.rs::Checker::check` over a list of
per-key verdicts: keep the minimum level (by discriminant) and break as soon
as a key comes back `weak`. -/
def aggregateGo : Consistency → List Consistency → Consistency
  | result, [] => result
  | result, level :: rest =>
      let merged := if level.toNat < result.toNat then level else result
      if level = Consistency.weak then merged else aggregateGo merged rest

/-- Aggregation starting from `Linearizable`, as in `Checker::check`. -/
def aggregate (levels : List Consistency) : Consistency :=
  aggregateGo Consistency.linearizable levels

/-- The minimum of two consistency levels by discriminant strength. -/
def cmin (a b : Consistency) : Consistency :=
  if a.toNat ≤ b.toNat then a else b

/-- Embeds `check.rs::Checker::check` composed with the per-key search: iterate the
keys, run the per-key check (with fuel), keep the minimum and break on
`weak`; `none` propagates fuel exhaustion. -/
def checkerCheckGo (fuel : Nat) (tl : Timeline) :
    Consistency → List KeyType → Option Consistency
  | result, [] => some result
  | result, k :: rest =>
      match checkPerKey fuel (perKeySpans tl k) with
      | none => none
      | some level =>
          let merged := if level.toNat < result.toNat then level else result
          if level = Consistency.weak then some merged
          else checkerCheckGo fuel tl merged rest

/-- The overall check over all keys of a timeline. -/
def checkerCheck (fuel : Nat) (tl : Timeline) : Option Consistency :=
  checkerCheckGo fuel tl Consistency.linearizable (checkerKeys tl)

/-! ## History parsing (`store.rs`)

String helpers mirror the Rust `str` methods used by the parser; they are
implemented by structural recursion on the character list so that concrete
histories evaluate inside the kernel. -/

/-- Rust `str::trim_start_matches` with a single-character pattern. -/
def trimStartMatches (s : String) (c : Char) : String :=
  String.mk (s.data.dropWhile (fun x => x = c))

/-- Rust `str::trim_end_matches` with a single-character pattern. -/
def trimEndMatches (s : String) (c : Char) : String :=
  String.mk ((s.data.reverse.dropWhile (fun x => x = c)).reverse)

/-- Rust `str::trim_start` (strip leading whitespace). -/
def trimStart (s : String) : String :=
  String.mk (s.data.dropWhile Char.isWhitespace)

/-- Rust `str::trim` (strip whitespace on both ends). -/
def trimStr (s : String) : String :=
  String.mk
    (((s.data.dropWhile Char.isWhitespace).reverse.dropWhile
      Char.isWhitespace).reverse)

/-- Rust `str::split_once` with a single-character pattern: split at the
first occurrence, or `none` when the character does not occur. -/
def splitOnce (s : String) (c : Char) : Option (String × String) :=
  let pre := s.data.takeWhile (fun x => x ≠ c)
  if pre.length = s.data.length then none
  else some (String.mk pre, String.mk (s.data.drop (pre.length + 1)))

/-- Rust `str::split` with a single-character pattern (on a char list). -/
def splitCharAux (c : Char) : List Char → List Char → List (List Char)
  | [], acc => [acc.reverse]
  | x :: rest, acc =>
      if x = c then acc.reverse :: splitCharAux c rest []
      else splitCharAux c rest (x :: acc)

/-- Rust `str::split` with a single-character pattern. -/
def splitChar (s : String) (c : Char) : List String :=
  (splitCharAux c s.data []).map String.mk

/-- Whether a string starts with the given character
(Rust `str::starts_with`). -/
def startsWithChar (s : String) (c : Char) : Bool :=
  s.data.head? = some c

/-- Accumulate decimal digits; any non-digit character fails
(the failure branch of Rust `str::parse` on integers). -/
def digitsToNat : List Char → Nat → Option Nat
  | [], acc => some acc
  | c :: rest, acc =>
      if c.isDigit then digitsToNat rest (acc * 10 + (c.toNat - 48))
      else none

/-- Rust `str::parse::<u64>` (digits only; empty input fails). -/
def strToNat (s : String) : Option Nat :=
  if s.data.isEmpty then none else digitsToNat s.data 0

/-- Rust `str::parse::<i64>` (optional leading minus sign). -/
def strToInt (s : String) : Option Int :=
  match s.data with
  | '-' :: rest =>
      if rest.isEmpty then none
      else (digitsToNat rest 0).map (fun n => -(n : Int))
  | l => if l.isEmpty then none else (digitsToNat l 0).map (fun n => (n : Int))

/-- Embeds `store.rs::EventType::from_type`. -/
def EventType.fromType (s : String) : Except String EventType :=
  if s = ":invoke" then Except.ok EventType.invoke
  else if s = ":ok" then Except.ok EventType.okay
  else if s = ":fail" then Except.ok EventType.fail
  else if s = ":info" then Except.ok EventType.error
  else Except.error "unknown event type"

/-- Embeds `store.rs::OpData::from_type`: the skeleton payload selected by `:f`. -/
def OpData.fromType (s : String) : Except String OpData :=
  if s = ":read" then Except.ok (OpData.read 0 none none)
  else if s = ":write" then Except.ok (OpData.write 0 0 0)
  else if s = ":cas" then Except.ok (OpData.rmw 0 none none none none)
  else Except.error "unknown operation type"

/-- Embeds `store.rs::OpData::fill_values`: fill the key and value fields from the
`:value` cluster (`[k v]` for read and write, `[k [rv wv]]` for CAS; the
literal `nil` is `none`). -/
def OpData.fillValues (o : OpData) (s : String) : Except String OpData :=
  match o with
  | .read _ _ tag =>
      match splitOnce (trimEndMatches (trimStartMatches s '[') ']') ' ' with
      | none => Except.error "invalid :value for :read"
      | some (k, v) =>
          match strToNat k with
          | none => Except.error "invalid key in :value"
          | some key =>
              if trimStr v = "nil" then Except.ok (OpData.read key none tag)
              else
                match strToNat v with
                | none => Except.error "invalid val in :value"
                | some val => Except.ok (OpData.read key (some val) tag)
  | .write _ _ tag =>
      match splitOnce (trimEndMatches (trimStartMatches s '[') ']') ' ' with
      | none => Except.error "invalid :value for :write"
      | some (k, v) =>
          match strToNat k, strToNat v with
          | some key, some val => Except.ok (OpData.write key val tag)
          | _, _ => Except.error "invalid :value for :write"
  | .rmw _ _ rtag _ wtag =>
      match splitOnce (trimEndMatches (trimStartMatches s '[') ']') ' ' with
      | none => Except.error "invalid :value for :cas"
      | some (k, vp) =>
          match strToNat k with
          | none => Except.error "invalid key in :value"
          | some key =>
              match splitOnce
                  (trimEndMatches (trimStartMatches vp '[') ']') ' ' with
              | none => Except.error "invalid :value for :cas"
              | some (rv, wv) =>
                  match strToNat rv, strToNat wv with
                  | some rval, some wval =>
                      Except.ok
                        (OpData.rmw key (some rval) rtag (some wval) wtag)
                  | _, _ => Except.error "invalid :value for :cas"

/-- Embeds `store.rs::OpData::fill_tstags`: fill the unique-tag fields from the
`:tstag` cluster. -/
def OpData.fillTstags (o : OpData) (s : String) : Except String OpData :=
  match o with
  | .read key val _ =>
      if trimStr s = "nil" then Except.ok (OpData.read key val none)
      else
        match strToNat s with
        | none => Except.error "invalid :tstag for :read"
        | some t => Except.ok (OpData.read key val (some t))
  | .write key val _ =>
      match strToNat s with
      | none => Except.error "invalid :tstag for :write"
      | some t => Except.ok (OpData.write key val t)
  | .rmw key rval _ wval _ =>
      match splitOnce (trimEndMatches (trimStartMatches s '[') ']') ' ' with
      | none => Except.error "invalid :tstag for :cas"
      | some (rt, wt) =>
          let rtag :=
            if trimStr rt = "nil" then Except.ok (none : Option Nat)
            else
              match strToNat rt with
              | none => Except.error "invalid :tstag for :cas"
              | some t => Except.ok (some t)
          let wtag :=
            if trimStr wt = "nil" then Except.ok (none : Option Nat)
            else
              match strToNat wt with
              | none => Except.error "invalid :tstag for :cas"
              | some t => Except.ok (some t)
          match rtag, wtag with
          | Except.ok r, Except.ok w => Except.ok (OpData.rmw key rval r wval w)
          | _, _ => Except.error "invalid :tstag for :cas"

/-- Mutable state threaded through `store.rs::parse_segment` and
`parse_history`: the monotonicity trackers, the maximum client id, and the
per-line option fields. -/
structure ParseSt where
  lastIndex : Int
  lastTime : Timestamp
  maxClient : ClientId
  time : Option Timestamp
  etype : Option EventType
  client : Option ClientId
  op : Option OpData
deriving DecidableEq

/-- The initial parse state (`last_index = -1`, `last_time = 0`,
`max_client = 0`, all per-line fields empty). -/
def ParseSt.initial : ParseSt :=
  { lastIndex := -1, lastTime := 0, maxClient := 0,
    time := none, etype := none, client := none, op := none }

/-- Embeds `store.rs::parse_segment`: dispatch on the field name. `Except.ok true`
continues the line, `Except.ok false` silently skips it (non-client
`:process`), and `Except.error` reports a malformed segment. Non-monotone
`:index` and `:time` are reported through the error branch. -/
def parseSegment (field stuff : String) (st : ParseSt) :
    Except String (Bool × ParseSt) :=
  if field = ":index" then
    match strToInt stuff with
    | none => Except.error "bad :index"
    | some i =>
        if i ≤ st.lastIndex then Except.error "index not increasing"
        else Except.ok (true, { st with lastIndex := i })
  else if field = ":time" then
    match strToNat stuff with
    | none => Except.error "bad :time"
    | some t =>
        if t ≤ st.lastTime then Except.error "timestamp not increasing"
        else Except.ok (true, { st with lastTime := t, time := some t })
  else if field = ":type" then
    match EventType.fromType stuff with
    | Except.error e => Except.error e
    | Except.ok et => Except.ok (true, { st with etype := some et })
  else if field = ":process" then
    if startsWithChar (trimStart stuff) ':' then Except.ok (false, st)
    else
      match strToNat stuff with
      | none => Except.error "bad :process"
      | some c =>
          let mc := if c > st.maxClient then c else st.maxClient
          Except.ok (true, { st with maxClient := mc, client := some c })
  else if field = ":f" then
    match OpData.fromType stuff with
    | Except.error e => Except.error e
    | Except.ok o => Except.ok (true, { st with op := some o })
  else if field = ":value" then
    match st.op with
    | none => Except.error "missing op type :f for :value"
    | some o =>
        match o.fillValues stuff with
        | Except.error e => Except.error e
        | Except.ok o2 => Except.ok (true, { st with op := some o2 })
  else if field = ":tstag" then
    match st.op with
    | none => Except.error "missing op type :f for :tstag"
    | some o =>
        match o.fillTstags stuff with
        | Except.error e => Except.error e
        | Except.ok o2 => Except.ok (true, { st with op := some o2 })
  else Except.ok (true, st)

/-- The per-line segment loop of `store.rs::parse_history`: returns the skip
flag and the state after the processed segments. A segment with no space or
a segment error skips the line (with a warning on stderr in the source);
mutations from earlier segments of the line persist. -/
def parseLine (segs : List String) (st : ParseSt) : Bool × ParseSt :=
  match segs with
  | [] => (false, st)
  | seg :: rest =>
      match splitOnce seg ' ' with
      | none => (true, st)
      | some (field, stuff) =>
          match parseSegment field stuff st with
          | Except.ok (true, st2) => parseLine rest st2
          | Except.ok (false, st2) => (true, st2)
          | Except.error _ => (true, st)

/-- The line loop of `store.rs::parse_history`: trim the enclosing braces,
split into comma-separated trimmed segments starting with a colon, run the
segment loop, and on an unskipped line compose an event from the four taken
fields (all four must be present, otherwise the whole parse fails). -/
def parseHistoryGo : List String → ParseSt → List Event →
    Except String (List Event × ClientId)
  | [], st, events => Except.ok (events, st.maxClient)
  | line :: rest, st, events =>
      let body := trimEndMatches (trimStartMatches line '\x7b') '\x7d'
      if body.data.isEmpty then parseHistoryGo rest st events
      else
        let segs := ((splitChar body ',').map trimStr).filter
          (fun s => startsWithChar s ':')
        match parseLine segs st with
        | (true, st2) => parseHistoryGo rest st2 events
        | (false, st2) =>
            match st2.time, st2.etype, st2.client, st2.op with
            | some t, some et, some c, some o =>
                parseHistoryGo rest
                  { st2 with time := none, etype := none,
                             client := none, op := none }
                  (events.concat (Event.mk t et c o))
            | _, _, _, _ => Except.error "missing event field(s) in line"

/-- Embeds `store.rs::parse_history` on an already-read list of lines: the vector
of client events and the maximum client id found. -/
def parseHistory (lines : List String) :
    Except String (List Event × ClientId) :=
  parseHistoryGo lines ParseSt.initial []

/-! ## Top level (`main.rs`) -/

/-- Embeds `main.rs::main_inner` from the loaded lines onward: parse, reject an
empty history, build the timeline, run the checker (with fuel standing for
the unbounded Rust loop), and report whether the level is linearizable. -/
def mainInner (fuel : Nat) (lines : List String) : Except String Bool :=
  match parseHistory lines with
  | Except.error e => Except.error e
  | Except.ok (events, maxClient) =>
      if events.isEmpty then Except.error "input history is empty"
      else
        match timelineNew events maxClient with
        | Except.error e => Except.error e
        | Except.ok tl =>
            match checkerCheck fuel tl with
            | none => Except.error "search fuel exhausted"
            | some level => Except.ok (level = Consistency.linearizable)

/-- Embeds `main.rs::main`: exit code 0 on a linearizable verdict, 1 on a
non-linearizable verdict, and `CHECK_ERROR = 101` when an error reaches the
top level. -/
def mainExit (fuel : Nat) (lines : List String) : Nat :=
  match mainInner fuel lines with
  | Except.ok true => 0
  | Except.ok false => 1
  | Except.error _ => 101

/-! ## Basic lemmas about the search step -/

/-- Any successor produced by `tryAppendNewSpan` carries the max of the
span's invoke timestamp and the parent's max invoke. -/
theorem tryAppend_maxInvoke (p : Possibility) (s : CkSpan)
    (fi : ClientId × Nat) (q : Possibility)
    (hq : tryAppendNewSpan p s fi = some q) :
    q.maxInvoke = max s.invoke p.maxInvoke := by
  rcases hsd : s.data with v | v | ⟨rv, wv⟩
  · by_cases hps : p.state = v
    · simp only [tryAppendNewSpan, hsd, if_pos hps] at hq
      exact Option.some.inj hq ▸ rfl
    · simp [tryAppendNewSpan, hsd, hps] at hq
  · simp only [tryAppendNewSpan, hsd] at hq
    exact Option.some.inj hq ▸ rfl
  · by_cases hps : p.state = rv
    · simp only [tryAppendNewSpan, hsd, if_pos hps] at hq
      exact Option.some.inj hq ▸ rfl
    · simp [tryAppendNewSpan, hsd, hps] at hq

/-- The dedup membership test succeeds exactly when some seen possibility
has the same `(state, feed_progress)` key. -/
theorem possibMem_iff (seen : List Possibility) (p : Possibility) :
    possibMem seen p = true ↔ pKey p ∈ seen.map pKey := by
  simp only [possibMem, List.any_eq_true, possibEq, Bool.and_eq_true, beq_iff_eq,
    List.mem_map, pKey]
  constructor
  · rintro ⟨q, hq, h1, h2⟩
    exact ⟨q, hq, by simp [h1, h2]⟩
  · rintro ⟨q, hq, h⟩
    exact ⟨q, hq, by simp [Prod.ext_iff] at h; exact ⟨h.1, h.2⟩⟩

/-- The function `handleFeedAttempt` either leaves the pending queue and seen set
untouched, or appends a single fresh successor to both. -/
theorem handleFeed_cases (p : Possibility) (s : CkSpan) (fi : ClientId × Nat)
    (pending seen : List Possibility) :
    handleFeedAttempt p s fi pending seen = (pending, seen) ∨
    ∃ q, tryAppendNewSpan p s fi = some q ∧ possibMem seen q = false ∧
      handleFeedAttempt p s fi pending seen =
        (pending.concat q, seen.concat q) := by
  unfold handleFeedAttempt
  split
  · exact Or.inl rfl
  · split
    · next q hq =>
        by_cases hmem : possibMem seen q
        · exact Or.inl (by simp [hmem])
        · exact Or.inr ⟨q, hq, by simpa using hmem, by simp [hmem]⟩
    · exact Or.inl rfl

/-- The function `expandStep` either leaves the accumulator untouched, or appends a
single fresh successor of a terminated in-range span to both components. -/
theorem expandStep_cases (queues : List (List CkSpan)) (possib : Possibility)
    (acc : List Possibility × List Possibility) (ci : ClientId × Nat) :
    expandStep queues possib acc ci = acc ∨
    ∃ q feeding, (queues.getD ci.1 []).get? ci.2 = some feeding ∧
      tryAppendNewSpan possib feeding ci = some q ∧
      possibMem acc.2 q = false ∧
      expandStep queues possib acc ci = (acc.1.concat q, acc.2.concat q) := by
  unfold expandStep
  split
  · exact Or.inl rfl
  · split
    · exact Or.inl rfl
    · next feeding hfeed =>
        split
        · rcases handleFeed_cases possib feeding ci acc.1 acc.2 with h | ⟨q, h1, h2, h3⟩
          · exact Or.inl (by rw [h])
          · exact Or.inr ⟨q, feeding, hfeed, h1, h2, by rw [h3]⟩
        · exact Or.inl rfl

/-- C1. Register transition function: for every possibility and candidate
span, a Read recording `v` is accepted iff the state equals `v` and leaves
the state unchanged; a Write of `v` is always accepted and sets the state to
`some v`; a CAS recording expected `e` and new `n` is accepted iff the state
equals `e` and sets the state to `n`; the initial possibility's state is
`none`, so a Read recording nil is accepted there exactly because the state
is `none`. -/
theorem registerTransition (p : Possibility) (s : CkSpan)
    (fi : ClientId × Nat) :
    (∀ v, s.data = CkData.read v →
      (p.state = v →
        tryAppendNewSpan p s fi = some (Possibility.mk p.graph p.state
          (max s.invoke p.maxInvoke) (incrAt p.feedProg fi.1))) ∧
      (p.state ≠ v → tryAppendNewSpan p s fi = none)) ∧
    (∀ v, s.data = CkData.write v →
      tryAppendNewSpan p s fi = some (Possibility.mk (p.graph.concat fi)
        (some v) (max s.invoke p.maxInvoke) (incrAt p.feedProg fi.1))) ∧
    (∀ e n, s.data = CkData.rmw e n →
      (p.state = e →
        tryAppendNewSpan p s fi = some (Possibility.mk (p.graph.concat fi)
          n (max s.invoke p.maxInvoke) (incrAt p.feedProg fi.1))) ∧
      (p.state ≠ e → tryAppendNewSpan p s fi = none)) ∧
    (∀ nc, (Possibility.initial nc).state = none) := by
  refine ⟨fun v hv => ⟨fun hs => ?_, fun hs => ?_⟩, fun v hv => ?_,
    fun e n hv => ⟨fun hs => ?_, fun hs => ?_⟩, fun nc => rfl⟩
  · simp only [tryAppendNewSpan, hv, if_pos hs]
  · simp [tryAppendNewSpan, hv, hs]
  · simp only [tryAppendNewSpan, hv]
  · simp only [tryAppendNewSpan, hv, if_pos hs]
  · simp [tryAppendNewSpan, hv, hs]

/-- Witness for C1: the transition function evaluated on a concrete write
span appended to the initial possibility of one client. -/
theorem registerTransition_witness :
    tryAppendNewSpan (Possibility.initial 1) (CkSpan.mk 1 2 (CkData.write 5))
      (0, 0) = some (Possibility.mk [(0, 0)] (some 5) 1 [1]) :=
  (registerTransition (Possibility.initial 1)
    (CkSpan.mk 1 2 (CkData.write 5)) (0, 0)).2.1 5 rfl

/-- C2. Real-time guard: a feed attempt is rejected by the guard exactly
when the span's finish is strictly below the possibility's max invoke
(equal boundaries are admitted and, when fresh and semantically accepted,
enqueued), and every accepted successor's max invoke is the max of the
parent's max invoke and the span's invoke timestamp. -/
theorem realTimeGuard (p : Possibility) (s : CkSpan) (fi : ClientId × Nat)
    (pending seen : List Possibility) :
    (s.finish < p.maxInvoke →
      handleFeedAttempt p s fi pending seen = (pending, seen)) ∧
    (p.maxInvoke ≤ s.finish → ∀ q, tryAppendNewSpan p s fi = some q →
      possibMem seen q = false →
      handleFeedAttempt p s fi pending seen =
        (pending.concat q, seen.concat q)) ∧
    (∀ q, tryAppendNewSpan p s fi = some q →
      q.maxInvoke = max p.maxInvoke s.invoke) := by
  refine ⟨fun h => ?_, fun h q hq hmem => ?_, fun q hq => ?_⟩
  · simp [handleFeedAttempt, h]
  · simp [handleFeedAttempt, Nat.not_lt.mpr h, hq, hmem]
  · rw [tryAppend_maxInvoke p s fi q hq, Nat.max_comm]

/-- Witness for C2: the guard admits a span whose finish equals the max
invoke seen, and the successor records the max invoke. -/
theorem realTimeGuard_witness :
    handleFeedAttempt (Possibility.mk [] none 4 [0])
      (CkSpan.mk 3 4 (CkData.write 2)) (0, 0) [] [] =
      ([Possibility.mk [(0, 0)] (some 2) 4 [1]],
       [Possibility.mk [(0, 0)] (some 2) 4 [1]]) ∧
    (Possibility.mk [(0, 0)] (some 2) 4 [1]).maxInvoke = max 4 3 :=
  ⟨(realTimeGuard (Possibility.mk [] none 4 [0])
      (CkSpan.mk 3 4 (CkData.write 2)) (0, 0) [] []).2.1 (by decide)
      (Possibility.mk [(0, 0)] (some 2) 4 [1]) rfl rfl,
   (realTimeGuard (Possibility.mk [] none 4 [0])
      (CkSpan.mk 3 4 (CkData.write 2)) (0, 0) [] []).2.2
      (Possibility.mk [(0, 0)] (some 2) 4 [1]) rfl⟩

/-! ## Seen-set invariants of the search -/

/-- The dedup invariant of the engine: the seen set holds pairwise-distinct
`(state, feed_progress)` keys, and every pending possibility's key is
already in the seen set. -/
def SeenInv (pending seen : List Possibility) : Prop :=
  (seen.map pKey).Nodup ∧ ∀ p ∈ pending, pKey p ∈ seen.map pKey

/-- One expansion sub-step preserves the dedup invariant. -/
theorem seenInv_expandStep (queues : List (List CkSpan))
    (possib : Possibility) (acc : List Possibility × List Possibility)
    (ci : ClientId × Nat) (h : SeenInv acc.1 acc.2) :
    SeenInv (expandStep queues possib acc ci).1
      (expandStep queues possib acc ci).2 := by
  rcases expandStep_cases queues possib acc ci with heq |
    ⟨q, feeding, _, _, hfresh, heq⟩
  · rw [heq]
    exact h
  · rw [heq]
    refine ⟨?_, ?_⟩
    · simp only [List.concat_eq_append, List.map_append, List.map_cons,
        List.map_nil]
      rw [List.nodup_append]
      refine ⟨h.1, List.nodup_singleton _, ?_⟩
      intro a ha hb
      simp only [List.mem_singleton] at hb
      subst hb
      have := (possibMem_iff acc.2 q).not.mp (by simp [hfresh])
      exact this ha
    · intro p hp
      simp only [List.concat_eq_append, List.mem_append, List.mem_singleton]
        at hp
      rcases hp with hp | hp
      · simp only [List.concat_eq_append, List.map_append, List.mem_append]
        exact Or.inl (h.2 p hp)
      · subst hp
        simp

/-- The full expansion of one possibility preserves the dedup invariant. -/
theorem seenInv_foldl (queues : List (List CkSpan)) (possib : Possibility)
    (L : List (Nat × Nat)) :
    ∀ acc : List Possibility × List Possibility, SeenInv acc.1 acc.2 →
      SeenInv (L.foldl (expandStep queues possib) acc).1
        (L.foldl (expandStep queues possib) acc).2 := by
  induction L with
  | nil => exact fun acc h => h
  | cons ci rest ih =>
      intro acc h
      exact ih _ (seenInv_expandStep queues possib acc ci h)

/-- C3. Deduplication identity: two possibilities are identified for dedup
exactly when their `(state, feed_progress)` pairs are equal (the graph and
max invoke are excluded); a generated successor whose key is already seen
leaves the pending queue and the seen set unchanged; and the expansion step
preserves the invariant that seen keys are pairwise distinct and every
pending possibility's key is seen — which holds of the initial state — so
each distinct key is enqueued at most once per sub-timeline search. -/
theorem dedupIdentity :
    (∀ a b : Possibility,
      possibEq a b = true ↔ a.state = b.state ∧ a.feedProg = b.feedProg) ∧
    (∀ (p : Possibility) (s : CkSpan) (fi : ClientId × Nat)
        (pending seen : List Possibility) (q : Possibility),
      tryAppendNewSpan p s fi = some q → possibMem seen q = true →
      handleFeedAttempt p s fi pending seen = (pending, seen)) ∧
    (∀ (queues : List (List CkSpan)) (possib : Possibility)
        (pending seen : List Possibility), SeenInv pending seen →
      SeenInv (expandPossib queues possib pending seen).1
        (expandPossib queues possib pending seen).2) ∧
    (∀ n, SeenInv [Possibility.initial n] [Possibility.initial n]) := by
  refine ⟨?_, ?_, ?_, ?_⟩
  · intro a b
    simp [possibEq]
  · intro p s fi pending seen q hq hmem
    unfold handleFeedAttempt
    split
    · rfl
    · rw [hq]
      simp [hmem]
  · intro queues possib pending seen h
    exact seenInv_foldl queues possib possib.feedProg.enum (pending, seen) h
  · intro n
    refine ⟨List.nodup_singleton _, ?_⟩
    intro p hp
    simp only [List.mem_singleton] at hp
    subst hp
    simp

/-- Witness for C3: a successor whose key is already seen (under a
different witness graph) is dropped, leaving the queues unchanged. -/
theorem dedupIdentity_witness :
    handleFeedAttempt (Possibility.initial 1)
      (CkSpan.mk 3 4 (CkData.write 2)) (0, 0) []
      [Possibility.mk [] (some 2) 99 [1]] =
      ([], [Possibility.mk [] (some 2) 99 [1]]) :=
  dedupIdentity.2.1 (Possibility.initial 1) (CkSpan.mk 3 4 (CkData.write 2))
    (0, 0) [] [Possibility.mk [] (some 2) 99 [1]]
    (Possibility.mk [(0, 0)] (some 2) 3 [1]) rfl (by decide)

/-! ## Finiteness of the possibility space and termination -/

/-- The register states a span can install when appended (none for reads,
the written value for writes, the recorded new value for CAS). -/
def spanStates (s : CkSpan) : List (Option ValType) :=
  match s.data with
  | .read _ => []
  | .write v => [some v]
  | .rmw _ wval => [wval]

/-- Every register state reachable during the search over the given
sub-timeline: the initial `none` plus the states installable by spans. -/
def stateBound (queues : List (List CkSpan)) : List (Option ValType) :=
  none :: queues.bind (fun q => q.bind spanStates)

/-- All lists whose entries are pointwise below the given bounds. -/
def listsBelow : List Nat → Finset (List Nat)
  | [] => {[]}
  | b :: bs => (Finset.range b ×ˢ listsBelow bs).image (fun x => x.1 :: x.2)

/-- The finite set of `(state, feed_progress)` keys a possibility generated
by the search over the given sub-timeline can have. -/
def keyFinset (queues : List (List CkSpan)) :
    Finset (Option ValType × List Nat) :=
  (stateBound queues).toFinset ×ˢ
    listsBelow (queues.map (fun q => q.length + 1))

/-- A feed-progress vector is valid when it has one entry per client, each
at most that client's queue length. -/
def validProg (queues : List (List CkSpan)) (prog : List Nat) : Prop :=
  List.Forall₂ (fun i q => i ≤ List.length q) prog queues

theorem mem_listsBelow : ∀ (bs : List Nat) (l : List Nat),
    l ∈ listsBelow bs ↔ List.Forall₂ (fun i b => i < b) l bs := by
  intro bs
  induction bs with
  | nil =>
      intro l
      simp [listsBelow, List.forall₂_nil_right_iff]
  | cons b bs ih =>
      intro l
      simp only [listsBelow, Finset.mem_image, Finset.mem_product,
        Finset.mem_range, Prod.exists]
      constructor
      · rintro ⟨x, xs, ⟨hx, hxs⟩, rfl⟩
        exact List.Forall₂.cons hx ((ih xs).mp hxs)
      · intro h
        cases h with
        | cons hx hxs => exact ⟨_, _, ⟨hx, (ih _).mpr hxs⟩, rfl⟩

theorem mem_keyFinset_iff (queues : List (List CkSpan))
    (k : Option ValType × List Nat) :
    k ∈ keyFinset queues ↔
      k.1 ∈ stateBound queues ∧ validProg queues k.2 := by
  rcases k with ⟨st, prog⟩
  simp only [keyFinset, Finset.mem_product, List.mem_toFinset,
    mem_listsBelow, validProg]
  constructor
  · rintro ⟨h1, h2⟩
    exact ⟨h1, List.Forall₂.imp
      (fun a b h => Nat.lt_succ_iff.mp h)
      (List.forall₂_map_right_iff.mp h2)⟩
  · rintro ⟨h1, h2⟩
    exact ⟨h1, List.forall₂_map_right_iff.mpr
      (List.Forall₂.imp (fun a b h => Nat.lt_succ_iff.mpr h) h2)⟩

theorem validProg_incrAt : ∀ (prog : List Nat) (queues : List (List CkSpan))
    (c i : Nat), validProg queues prog → prog.get? c = some i →
    i < (queues.getD c []).length → validProg queues (incrAt prog c) := by
  intro prog
  induction prog with
  | nil => intro queues c i _ hg _; simp at hg
  | cons x xs ih =>
      intro queues c i hf hg hi
      cases hf with
      | cons hx hxs =>
          cases c with
          | zero =>
              have hxi : x = i := Option.some.inj hg
              subst hxi
              simp only [List.getD_cons_zero] at hi
              exact List.Forall₂.cons (by omega) hxs
          | succ c =>
              simp only [List.get?_cons_succ] at hg
              simp only [List.getD_cons_succ] at hi
              exact List.Forall₂.cons hx (ih _ c i hxs hg hi)

/-- A successor generated from a valid possibility by feeding an in-range
span is itself valid: its state is bounded by the sub-timeline's states and
its feed progress stays within the queue lengths. -/
theorem tryAppend_valid (queues : List (List CkSpan)) (possib q : Possibility)
    (feeding : CkSpan) (ci : Nat × Nat)
    (hfeed : (queues.getD ci.1 []).get? ci.2 = some feeding)
    (hstate : possib.state ∈ stateBound queues)
    (hprog : validProg queues possib.feedProg)
    (happ : tryAppendNewSpan possib feeding ci = some q)
    (hci : possib.feedProg.get? ci.1 = some ci.2) :
    q.state ∈ stateBound queues ∧ validProg queues q.feedProg := by
  have hilen : ci.2 < (queues.getD ci.1 []).length :=
    List.get?_eq_some.mp hfeed |>.choose
  have hclen : ci.1 < queues.length := by
    have h1 : ci.1 < possib.feedProg.length :=
      (List.get?_eq_some.mp hci).choose
    have h2 := List.Forall₂.length_eq hprog
    omega
  have hqmem : queues.getD ci.1 [] ∈ queues := by
    have : queues.get? ci.1 = some (queues.getD ci.1 []) := by
      rw [List.getD_eq_get?]
      cases hg : queues.get? ci.1 with
      | none => exact absurd (List.get?_eq_none.mp hg) (by omega)
      | some v => rfl
    exact List.get?_mem this
  have hfeedmem : feeding ∈ queues.getD ci.1 [] := List.get?_mem hfeed
  have hinstall : ∀ st, st ∈ spanStates feeding → st ∈ stateBound queues := by
    intro st hst
    exact List.mem_cons_of_mem none (List.mem_bind.mpr
      ⟨queues.getD ci.1 [], hqmem, List.mem_bind.mpr
        ⟨feeding, hfeedmem, hst⟩⟩)
  have hprog2 : validProg queues (incrAt possib.feedProg ci.1) :=
    validProg_incrAt possib.feedProg queues ci.1 ci.2 hprog hci hilen
  rcases hsd : feeding.data with v | v | ⟨rv, wv⟩
  · by_cases hpv : possib.state = v
    · simp only [tryAppendNewSpan, hsd, if_pos hpv] at happ
      have hq := Option.some.inj happ
      subst hq
      exact ⟨hstate, hprog2⟩
    · simp [tryAppendNewSpan, hsd, hpv] at happ
  · simp only [tryAppendNewSpan, hsd] at happ
    have hq := Option.some.inj happ
    subst hq
    exact ⟨hinstall (some v) (by simp [spanStates, hsd]), hprog2⟩
  · by_cases hpv : possib.state = rv
    · simp only [tryAppendNewSpan, hsd, if_pos hpv] at happ
      have hq := Option.some.inj happ
      subst hq
      exact ⟨hinstall wv (by simp [spanStates, hsd]), hprog2⟩
    · simp [tryAppendNewSpan, hsd, hpv] at happ

/-- A seen set with pairwise-distinct valid keys is no larger than the
finite key space. -/
theorem seenLen_le (queues : List (List CkSpan)) (seen : List Possibility)
    (h1 : (seen.map pKey).Nodup)
    (h2 : ∀ p ∈ seen, pKey p ∈ keyFinset queues) :
    seen.length ≤ (keyFinset queues).card := by
  have hsub : (seen.map pKey).toFinset ⊆ keyFinset queues := by
    intro k hk
    simp only [List.mem_toFinset, List.mem_map] at hk
    obtain ⟨p, hp, rfl⟩ := hk
    exact h2 p hp
  calc seen.length = (seen.map pKey).length := (List.length_map _ _).symm
    _ = (seen.map pKey).toFinset.card :=
        (List.toFinset_card_of_nodup h1).symm
    _ ≤ _ := Finset.card_le_card hsub

/-- The full invariant of the per-key search: the dedup invariant plus the
validity of every seen possibility's key. -/
def SearchInv (queues : List (List CkSpan))
    (pending seen : List Possibility) : Prop :=
  SeenInv pending seen ∧ ∀ p ∈ seen, pKey p ∈ keyFinset queues

/-- The termination measure of the search loop: unexplored keys (bounded by
the key space) plus the pending queue length. -/
def searchMeasure (B : Nat) (pending seen : List Possibility) : Nat :=
  (B + 1 - seen.length) + pending.length

theorem expandStep_measure (queues : List (List CkSpan))
    (possib : Possibility) (acc : List Possibility × List Possibility)
    (ci : Nat × Nat) (hci : possib.feedProg.get? ci.1 = some ci.2)
    (hstate : possib.state ∈ stateBound queues)
    (hprog : validProg queues possib.feedProg)
    (hinv : SearchInv queues acc.1 acc.2) :
    SearchInv queues (expandStep queues possib acc ci).1
        (expandStep queues possib acc ci).2 ∧
      searchMeasure (keyFinset queues).card
          (expandStep queues possib acc ci).1
          (expandStep queues possib acc ci).2 =
        searchMeasure (keyFinset queues).card acc.1 acc.2 := by
  have hseen := seenInv_expandStep queues possib acc ci hinv.1
  rcases expandStep_cases queues possib acc ci with heq |
    ⟨q, feeding, hfeed, happ, hfresh, heq⟩
  · rw [heq]
    exact ⟨hinv, rfl⟩
  · rw [heq] at hseen ⊢
    have hqvalid := tryAppend_valid queues possib q feeding ci hfeed hstate
      hprog happ hci
    have hsB := seenLen_le queues acc.2 hinv.1.1 hinv.2
    refine ⟨⟨hseen, ?_⟩, ?_⟩
    · intro p hp
      simp only [List.concat_eq_append, List.mem_append,
        List.mem_singleton] at hp
      rcases hp with hp | hp
      · exact hinv.2 p hp
      · subst hp
        exact (mem_keyFinset_iff queues _).mpr ⟨hqvalid.1, hqvalid.2⟩
    · simp only [searchMeasure, List.concat_eq_append, List.length_append,
        List.length_singleton]
      omega

theorem expandFold_measure (queues : List (List CkSpan))
    (possib : Possibility) (L : List (Nat × Nat)) :
    ∀ acc : List Possibility × List Possibility,
      (∀ ci ∈ L, possib.feedProg.get? ci.1 = some ci.2) →
      possib.state ∈ stateBound queues → validProg queues possib.feedProg →
      SearchInv queues acc.1 acc.2 →
      SearchInv queues (L.foldl (expandStep queues possib) acc).1
          (L.foldl (expandStep queues possib) acc).2 ∧
        searchMeasure (keyFinset queues).card
            (L.foldl (expandStep queues possib) acc).1
            (L.foldl (expandStep queues possib) acc).2 =
          searchMeasure (keyFinset queues).card acc.1 acc.2 := by
  induction L with
  | nil => exact fun acc _ _ _ hinv => ⟨hinv, rfl⟩
  | cons ci rest ih =>
      intro acc hL hstate hprog hinv
      have hstep := expandStep_measure queues possib acc ci
        (hL ci (List.mem_cons_self _ _)) hstate hprog hinv
      have hrest := ih (expandStep queues possib acc ci)
        (fun x hx => hL x (List.mem_cons_of_mem _ hx)) hstate hprog hstep.1
      exact ⟨hrest.1, by rw [List.foldl_cons] at *; omega⟩

/-- The initial pending queue and seen set satisfy the dedup invariant. -/
theorem seenInv_initial (n : Nat) :
    SeenInv [Possibility.initial n] [Possibility.initial n] := by
  refine ⟨List.nodup_singleton _, ?_⟩
  intro p hp
  simp only [List.mem_singleton] at hp
  subst hp
  simp

/-- The all-zero initial feed progress is valid. -/
theorem validProg_initial (queues : List (List CkSpan)) :
    validProg queues (List.replicate queues.length 0) := by
  induction queues with
  | nil => exact List.Forall₂.nil
  | cons q rest ih => exact List.Forall₂.cons (Nat.zero_le _) ih

/-- With more fuel than the search measure, the loop returns an answer. -/
theorem checkLoop_total (queues : List (List CkSpan)) :
    ∀ (fuel : Nat) (pending seen : List Possibility),
      SearchInv queues pending seen →
      searchMeasure (keyFinset queues).card pending seen < fuel →
      (checkLoop queues fuel pending seen).isSome := by
  intro fuel
  induction fuel with
  | zero => exact fun pending seen _ h => absurd h (Nat.not_lt_zero _)
  | succ fuel ih =>
      intro pending seen hinv hm
      cases pending with
      | nil => simp [checkLoop]
      | cons possib rest =>
          simp only [checkLoop]
          split
          · simp
          · have hkey : pKey possib ∈ keyFinset queues := by
              have h1 := hinv.1.2 possib (List.mem_cons_self _ _)
              obtain ⟨qq, hqq, hk⟩ := List.mem_map.mp h1
              exact hk ▸ hinv.2 qq hqq
            have hsv := (mem_keyFinset_iff queues (pKey possib)).mp hkey
            have hfold := expandFold_measure queues possib
              possib.feedProg.enum (rest, seen)
              (fun ci hci => List.mem_enum_iff_get?.mp hci) hsv.1 hsv.2
              ⟨⟨hinv.1.1, fun p hp =>
                  hinv.1.2 p (List.mem_cons_of_mem _ hp)⟩, hinv.2⟩
            apply ih _ _ hfold.1
            have hmeq := hfold.2
            simp only [searchMeasure, List.length_cons] at hm hmeq ⊢
            omega

/-- C9. Unconditional termination: for every finite sub-timeline there is a
fuel bound (one more than the size of the finite `(state, feed_progress)`
key space plus one) within which the per-key BFS returns a verdict, because
the seen set admits each key at most once and the measure of unexplored
keys plus pending possibilities strictly decreases at every iteration. -/
theorem searchTerminates (queues : List (List CkSpan)) :
    ∃ fuel, (checkPerKey fuel queues).isSome := by
  refine ⟨(keyFinset queues).card + 2, ?_⟩
  apply checkLoop_total
  · refine ⟨seenInv_initial queues.length, ?_⟩
    intro p hp
    simp only [List.mem_singleton] at hp
    subst hp
    refine (mem_keyFinset_iff queues _).mpr ⟨?_, ?_⟩
    · exact List.mem_cons_self _ _
    · exact validProg_initial queues
  · simp only [searchMeasure, List.length_singleton]
    omega

/-! ## Concrete scenarios and the inflight-span behaviour -/

/-- C4. Scenario S3: client 0 writes 1 over `[1,10]`, client 1 reads nil
over `[2,3]`, client 2 reads 1 over `[4,5]`; the per-key search returns
Linearizable (the straddling write lets the nil read linearize first). -/
theorem scenarioS3 :
    checkPerKey 32
      [[CkSpan.mk 1 10 (CkData.write 1)],
       [CkSpan.mk 2 3 (CkData.read none)],
       [CkSpan.mk 4 5 (CkData.read (some 1))]] =
      some Consistency.linearizable := by
  decide

/-- A legal event sequence whose last event is an Invoke with no matching
completion: write key 0 value 1 over `[1,2]` (completed), then invoke a
read of key 0 at time 3 that never completes. -/
def inflightEvents : List Event :=
  [Event.mk 1 EventType.invoke 0 (OpData.write 0 1 7),
   Event.mk 2 EventType.okay 0 (OpData.write 0 1 7),
   Event.mk 3 EventType.invoke 0 (OpData.read 0 none none)]

/-- C5 counterexample: after the Timeline Builder runs on the legal event
sequence `inflightEvents`, client 0's queue retains a span with
`finish_ts = 0` (the unmatched Invoke), and that inflight span also reaches
the checker's per-key sub-timeline for key 0 (which is in the key map
because of the completed write). -/
theorem inflightSurvives_cex :
    (timelineNew inflightEvents 0).map
        (fun tl => tl.queues.map (fun q => q.map OpSpan.finish)) =
      Except.ok [[2, 0]] ∧
    (timelineNew inflightEvents 0).map
        (fun tl => tl.statsKeyOps.map Prod.fst) = Except.ok [0] ∧
    (timelineNew inflightEvents 0).map
        (fun tl => (perKeySpans tl 0).map (fun q => q.map CkSpan.finish)) =
      Except.ok [[2, 0]] :=
  ⟨rfl, rfl, rfl⟩

/-- C5 amended: the Timeline Builder retains a trailing inflight span
(`finish_ts = 0`) and such spans reach the checker; however the per-key
search never feeds a non-terminated span — its expansion step leaves the
pending queue and seen set unchanged whenever the next unconsumed span has
`finish_ts = 0`. -/
theorem inflightNeverFed (queues : List (List CkSpan))
    (possib : Possibility) (acc : List Possibility × List Possibility)
    (c i : Nat) (feeding : CkSpan)
    (hfeed : (queues.getD c []).get? i = some feeding)
    (hfin : feeding.finish = 0) :
    expandStep queues possib acc (c, i) = acc := by
  have hlen : i < (queues.getD c []).length :=
    (List.get?_eq_some.mp hfeed).choose
  unfold expandStep
  dsimp only
  rw [if_neg (by omega), hfeed]
  simp [CkSpan.terminated, hfin]

/-- Witness for the C5 amended theorem: an inflight read span contributes
no successor. -/
theorem inflightNeverFed_witness :
    expandStep [[CkSpan.mk 3 0 (CkData.read none)]] (Possibility.initial 1)
      ([], []) (0, 0) = ([], []) :=
  inflightNeverFed [[CkSpan.mk 3 0 (CkData.read none)]]
    (Possibility.initial 1) ([], []) 0 0 (CkSpan.mk 3 0 (CkData.read none))
    rfl rfl

/-! ## Aggregation across keys -/

theorem aggregateGo_char (l : List Consistency) :
    ∀ r, aggregateGo r l =
      if Consistency.weak ∈ l then Consistency.weak else r := by
  induction l with
  | nil => intro r; simp [aggregateGo]
  | cons level rest ih =>
      intro r
      cases level with
      | weak => cases r <;> simp [aggregateGo, Consistency.toNat]
      | linearizable => cases r <;> simp [aggregateGo, Consistency.toNat, ih]

theorem foldr_cmin_char (l : List Consistency) :
    l.foldr cmin Consistency.linearizable =
      if Consistency.weak ∈ l then Consistency.weak
      else Consistency.linearizable := by
  induction l with
  | nil => simp
  | cons level rest ih =>
      cases level <;> simp only [List.foldr_cons, ih, List.mem_cons] <;>
        by_cases hm : Consistency.weak ∈ rest <;>
        simp [cmin, Consistency.toNat, hm]

/-- The key loop of `Checker::check` computes the aggregation of the
per-key verdicts. -/
theorem checkerCheckGo_eq_aggregate (fuel : Nat) (tl : Timeline)
    (v : KeyType → Consistency)
    (hv : ∀ k, checkPerKey fuel (perKeySpans tl k) = some (v k)) :
    ∀ (ks : List KeyType) (r : Consistency),
      checkerCheckGo fuel tl r ks = some (aggregateGo r (ks.map v)) := by
  intro ks
  induction ks with
  | nil => intro r; rfl
  | cons k rest ih =>
      intro r
      simp only [checkerCheckGo, hv k, List.map_cons, aggregateGo]
      by_cases hw : v k = Consistency.weak <;> simp [hw, ih]

/-- C6. Aggregation: whenever every per-key search returns a verdict, the
overall verdict of the key loop equals the minimum (weakest) of the per-key
verdicts, and permuting the order in which the keys are checked does not
change the overall verdict even though the loop short-circuits on Weak. -/
theorem aggregationMin (fuel : Nat) (tl : Timeline)
    (v : KeyType → Consistency) (ks ks2 : List KeyType)
    (hv : ∀ k, checkPerKey fuel (perKeySpans tl k) = some (v k))
    (hperm : ks.Perm ks2) :
    checkerCheckGo fuel tl Consistency.linearizable ks =
      some ((ks.map v).foldr cmin Consistency.linearizable) ∧
    checkerCheckGo fuel tl Consistency.linearizable ks =
      checkerCheckGo fuel tl Consistency.linearizable ks2 := by
  have h1 := checkerCheckGo_eq_aggregate fuel tl v hv ks
    Consistency.linearizable
  have h2 := checkerCheckGo_eq_aggregate fuel tl v hv ks2
    Consistency.linearizable
  constructor
  · rw [h1, aggregateGo_char, foldr_cmin_char]
  · rw [h1, h2, aggregateGo_char, aggregateGo_char]
    exact congrArg some (if_congr ((hperm.map v).mem_iff) rfl rfl)

/-- A timeline with no clients and no keys, for concrete instantiation. -/
def tlEmpty : Timeline :=
  Timeline.mk [] (0, 0, 0) (0, 0, 0) (0, 0, 0) []

/-- Witness for C6: on a concrete timeline every key verdict is
Linearizable and the aggregate equals the fold of the minimum. -/
theorem aggregationMin_witness :
    checkerCheckGo 1 tlEmpty Consistency.linearizable [0] =
      some Consistency.linearizable ∧
    checkerCheckGo 1 tlEmpty Consistency.linearizable [0] =
      checkerCheckGo 1 tlEmpty Consistency.linearizable [0] := by
  have h := aggregationMin 1 tlEmpty (fun _ => Consistency.linearizable)
    [0] [0] (fun k => rfl) (List.Perm.refl _)
  exact ⟨h.1, h.2⟩

/-! ## Error handling of the loader and builder -/

/-- Whether an `Except` value is an error. -/
def isErr {α : Type} : Except String α → Bool
  | Except.error _ => true
  | Except.ok _ => false

/-- A well-formed history line: invoke a write of value 1 to key 0. -/
def histLine1 : String :=
  "\x7b:index 0, :time 1, :type :invoke, :process 0, :f :write, :value [0 1]\x7d"

/-- A well-formed history line: complete the write. -/
def histLine2 : String :=
  "\x7b:index 1, :time 2, :type :ok, :process 0, :f :write, :value [0 1]\x7d"

/-- A history line whose `:index` regresses (0 after 1): a structural
invariant violation per the specification. -/
def histLineBadIndex : String :=
  "\x7b:index 0, :time 3, :type :invoke, :process 0, :f :read, :value [0 nil]\x7d"

/-- C7 counterexample: on a history containing a non-monotone `:index`
line, the loader does not surface an error — it drops the offending line
and parses the rest — and the pipeline still renders a verdict (exit code 0
for Linearizable) instead of failing. -/
theorem invariantFatal_cex :
    parseHistory [histLine1, histLine2, histLineBadIndex] =
      Except.ok ([Event.mk 1 EventType.invoke 0 (OpData.write 0 1 0),
                  Event.mk 2 EventType.okay 0 (OpData.write 0 1 0)], 0) ∧
    mainExit 8 [histLine1, histLine2, histLineBadIndex] = 0 :=
  ⟨rfl, by decide⟩

/-- C7 amended: a double-invoke, an `:ok` (or `:fail`/`:info`) with no
inflight operation, and an Okay payload mismatching its Invoke make the
Timeline Builder surface an error to the top level; a non-monotone `:index`
or `:time`, by contrast, makes `parse_segment` error but `parse_history`
only skips the offending line (with a warning) and checking proceeds. -/
theorem invariantFatal (tl : Timeline) (e : Event) :
    (e.etype = EventType.invoke →
      ((tl.queues.getD e.client []).getLast?.map OpSpan.finish) = some 0 →
      isErr (applyEvent tl e) = true) ∧
    (e.etype = EventType.okay →
      ((tl.queues.getD e.client []).getLast? = none ∨
        ∃ op, (tl.queues.getD e.client []).getLast? = some op ∧
          op.terminated) →
      isErr (applyEvent tl e) = true) ∧
    ((e.etype = EventType.fail ∨ e.etype = EventType.error) →
      ((tl.queues.getD e.client []).getLast? = none ∨
        ∃ op, (tl.queues.getD e.client []).getLast? = some op ∧
          op.terminated) →
      isErr (applyEvent tl e) = true) ∧
    (e.etype = EventType.okay →
      ∀ op, (tl.queues.getD e.client []).getLast? = some op →
        op.finish = 0 → e.opdata.matchPrevious op.data = false →
        isErr (applyEvent tl e) = true) ∧
    (∀ (stuff : String) (st : ParseSt) (i : Int),
      strToInt stuff = some i → i ≤ st.lastIndex →
      isErr (parseSegment ":index" stuff st) = true) ∧
    (∀ (stuff : String) (st : ParseSt) (t : Nat),
      strToNat stuff = some t → t ≤ st.lastTime →
      isErr (parseSegment ":time" stuff st) = true) ∧
    (∀ (seg : String) (segs : List String) (st : ParseSt)
        (f stuff msg : String),
      splitOnce seg ' ' = some (f, stuff) →
      parseSegment f stuff st = Except.error msg →
      parseLine (seg :: segs) st = (true, st)) := by
  refine ⟨?_, ?_, ?_, ?_, ?_, ?_, ?_⟩
  · intro h1 h2
    simp only [applyEvent, h1]
    rcases hq : tl.queues.getD e.client [] with _ | ⟨a, as⟩
    · rw [hq] at h2
      simp at h2
    · rw [hq] at h2
      simp [h2, isErr]
  · intro h1 h2
    simp only [applyEvent, h1]
    rcases h2 with h2 | ⟨op, hop, hterm⟩
    · rw [h2]
      rfl
    · rw [hop]
      simp [hterm, isErr]
  · intro h1 h2
    rcases h1 with h1 | h1 <;> simp only [applyEvent, h1] <;>
      rcases h2 with h2 | ⟨op, hop, hterm⟩
    · rw [h2]
      rfl
    · rw [hop]
      simp [hterm, isErr]
    · rw [h2]
      rfl
    · rw [hop]
      simp [hterm, isErr]
  · intro h1 op hop hfin hmm
    simp only [applyEvent, h1]
    rw [hop]
    simp [OpSpan.terminated, hfin, hmm, isErr]
  · intro stuff st i hparse hle
    unfold parseSegment
    rw [if_pos rfl, hparse]
    dsimp only
    rw [if_pos hle]
    rfl
  · intro stuff st t hparse hle
    unfold parseSegment
    rw [if_neg (by decide), if_pos rfl, hparse]
    dsimp only
    rw [if_pos hle]
    rfl
  · intro seg segs st f stuff msg hsplit hseg
    unfold parseLine
    rw [hsplit]
    dsimp only
    rw [hseg]

/-- Witness for C7: concrete fatal builder errors (double-invoke, `:ok`
with no inflight op, payload mismatch) and a concrete skipped non-monotone
`:index` segment. -/
theorem invariantFatal_witness :
    isErr (applyEvent
      (Timeline.mk [[OpSpan.mk 1 0 (OpData.read 0 none none) 0]]
        (1, 0, 0) (0, 0, 0) (0, 0, 0) [])
      (Event.mk 2 EventType.invoke 0 (OpData.read 0 none none))) = true ∧
    isErr (applyEvent tlEmpty
      (Event.mk 2 EventType.okay 0 (OpData.read 0 none none))) = true ∧
    isErr (applyEvent
      (Timeline.mk [[OpSpan.mk 1 0 (OpData.write 0 1 0) 0]]
        (0, 1, 0) (0, 0, 0) (0, 0, 0) [])
      (Event.mk 2 EventType.okay 0 (OpData.write 0 2 0))) = true ∧
    isErr (parseSegment ":index" "0"
      ({ ParseSt.initial with lastIndex := 0 })) = true ∧
    parseLine [":index 0"] { ParseSt.initial with lastIndex := 0 } =
      (true, { ParseSt.initial with lastIndex := 0 }) := by
  refine ⟨?_, ?_, ?_, ?_, ?_⟩
  · exact (invariantFatal _ _).1 rfl rfl
  · exact (invariantFatal _ _).2.1 rfl (Or.inl rfl)
  · exact (invariantFatal _ _).2.2.2.1 rfl
      (OpSpan.mk 1 0 (OpData.write 0 1 0) 0) rfl rfl rfl
  · exact (invariantFatal tlEmpty
      (Event.mk 0 EventType.invoke 0 (OpData.read 0 none none))).2.2.2.2.1
      "0" _ 0 rfl (by decide)
  · exact (invariantFatal tlEmpty
      (Event.mk 0 EventType.invoke 0 (OpData.read 0 none none))).2.2.2.2.2.2
      ":index 0" [] _ ":index" "0" "index not increasing" rfl rfl

/-! ## Outcome taxonomy and the empty history -/

/-- C8 counterexample: the consistency taxonomy of the implementation
contains exactly the two values Weak and Linearizable, so no Inconclusive
outcome distinct from Weak exists to be returned on bound exhaustion (and
the search loop carries no bound to exhaust). -/
theorem boundedSearch_cex :
    (Finset.univ : Finset Consistency) =
      {Consistency.weak, Consistency.linearizable} := by
  decide

/-- C8 amended: the search engine supports no external bound, and whenever
the per-key search returns, its outcome is Weak or Linearizable — the
taxonomy admits no Inconclusive value. -/
theorem boundedSearch (fuel : Nat) (queues : List (List CkSpan))
    (r : Consistency) (h : checkPerKey fuel queues = some r) :
    r = Consistency.weak ∨ r = Consistency.linearizable := by
  cases r
  · exact Or.inl rfl
  · exact Or.inr rfl

/-- Witness for the C8 amended theorem at a concrete run. -/
theorem boundedSearch_witness :
    Consistency.linearizable = Consistency.weak ∨
      Consistency.linearizable = Consistency.linearizable :=
  boundedSearch 1 [] Consistency.linearizable rfl

/-- C10. Empty history is an error, not a pass: if parsing yields zero
client events, the checker reports the error (exit code `CHECK_ERROR =
101`) and renders no verdict, rather than reporting Linearizable. -/
theorem emptyHistoryErr (fuel : Nat) (lines : List String)
    (es : List Event) (mc : ClientId)
    (hparse : parseHistory lines = Except.ok (es, mc)) (hempty : es = []) :
    mainExit fuel lines = 101 := by
  subst hempty
  unfold mainExit mainInner
  rw [hparse]
  rfl

/-- Witness for C10: the empty input exits with code 101. -/
theorem emptyHistoryErr_witness : mainExit 1 [] = 101 :=
  emptyHistoryErr 1 [] [] 0 rfl rfl

end JepsenDemo
